import Mathlib

/-!
Verification of the request scheduler and batch-execution loop of
`megatron/core/inference/engines/mcore_engine.py`.

The engine (`MCoreEngine.generate`, `MCoreEngine.run_engine`) is embedded
directly from the source file.  The `Scheduler` and `InferenceRequest`
collaborators are not part of the provided sources (only their callers are),
so they are modelled from the specification (sections 3 and 4.1): three
insertion-ordered pools keyed by request id, capacity-limited admission, FIFO
promotion, and a consistency check on the result map of each generation step.
Python dicts are represented by insertion-ordered association lists.
-/

namespace MegatronInference

/-- Modelled from the spec: request lifecycle states of §4.1's state machine.
`waiting` and `active` are the non-terminal states; `completed` and `failed`
are terminal and irreversible. -/
inductive Status where
  | waiting
  | active
  | completed
  | failed
deriving DecidableEq

/-- Modelled from the spec: a status is terminal iff it is Completed or
Failed. -/
def Status.isTerminal : Status → Bool
  | .completed => true
  | .failed => true
  | _ => false

/-- Modelled from the spec: the unit of work (§3).  The per-request generation
parameters are an opaque configuration bundle, represented by a `Nat`. -/
structure InferenceRequest where
  requestId : Nat
  prompt : String
  promptTokens : List Nat
  inferenceParams : Nat
  outputTokens : List Nat
  status : Status
deriving DecidableEq

/-- A pool is a Python dict keyed by request id: an insertion-ordered
association list. -/
abbrev Pool := List (Nat × InferenceRequest)

def Pool.keys (p : Pool) : List Nat := p.map Prod.fst

/-- Membership of a key in a key list, as a boolean (dict `in` test). -/
def keyMem (k : Nat) : List Nat → Bool
  | [] => false
  | k' :: rest => k == k' || keyMem k rest

/-- First binding of a key in a pool (dict lookup). -/
def lookupId (k : Nat) : Pool → Option InferenceRequest
  | [] => none
  | (k', r) :: rest => if k' = k then some r else lookupId k rest

/-- Two pools have the same key set. -/
def sameKeys (a b : Pool) : Bool :=
  (Pool.keys a).all (fun k => keyMem k (Pool.keys b)) &&
    (Pool.keys b).all (fun k => keyMem k (Pool.keys a))

/-- Modelled from the spec: the Scheduler's state (§2, §4.1) — three pools
(waiting, active, completed), the capacity limit fixed at construction, and a
counter assigning fresh request ids at admission. -/
structure SchedulerState where
  maxBatchSize : Nat
  requestCounter : Nat
  waiting : Pool
  active : Pool
  completed : Pool
deriving DecidableEq

/-- Modelled from the spec: a freshly constructed Scheduler with the given
capacity and all three pools empty. -/
def mkScheduler (maxBatchSize : Nat) : SchedulerState :=
  { maxBatchSize := maxBatchSize
    requestCounter := 0
    waiting := []
    active := []
    completed := [] }

/-- Modelled from the spec: `add_request` (§4.1) constructs a new
InferenceRequest with status Waiting if the active pool is at capacity, else
status Active, inserts it into the corresponding pool, and returns the
assigned id.  It always succeeds. -/
def addRequest (prompt : String) (promptTokens : List Nat)
    (inferenceParams : Nat) (st : SchedulerState) : Nat × SchedulerState :=
  let id := st.requestCounter
  if st.active.length < st.maxBatchSize then
    let req : InferenceRequest :=
      { requestId := id, prompt := prompt, promptTokens := promptTokens
        inferenceParams := inferenceParams, outputTokens := []
        status := .active }
    (id, { st with requestCounter := id + 1, active := st.active ++ [(id, req)] })
  else
    let req : InferenceRequest :=
      { requestId := id, prompt := prompt, promptTokens := promptTokens
        inferenceParams := inferenceParams, outputTokens := []
        status := .waiting }
    (id, { st with requestCounter := id + 1, waiting := st.waiting ++ [(id, req)] })

/-- Modelled from the spec: `have_requests_pending` (§4.1) is true iff the
waiting pool is non-empty or the active pool is non-empty. -/
def haveRequestsPending (st : SchedulerState) : Bool :=
  !st.waiting.isEmpty || !st.active.isEmpty

/-- Modelled from the spec: FIFO promotion (§4.1) — move the oldest-arrival
waiting entries into the active pool (setting their status to Active) while
the active pool is below capacity.  Returns the new (waiting, active) pair. -/
def promoteLoop (maxBatchSize : Nat) : Pool → Pool → Pool × Pool
  | [], active => ([], active)
  | (k, r) :: rest, active =>
    if active.length < maxBatchSize then
      promoteLoop maxBatchSize rest (active ++ [(k, { r with status := .active })])
    else
      ((k, r) :: rest, active)

/-- Modelled from the spec: `update_requests_pools` (§4.1, §7).  The result
map must cover exactly the ids of the active pool; otherwise the call fails
with a consistency violation and no pool is changed.  On success each update
is applied in place, requests with a terminal status move to the completed
pool, and vacated active slots are refilled FIFO from the waiting pool up to
the capacity limit. -/
def updateRequestsPools (resultMap : Pool) (st : SchedulerState) :
    Except Unit SchedulerState :=
  if sameKeys resultMap st.active then
    let updatedActive : Pool :=
      st.active.map (fun p => (p.1, (lookupId p.1 resultMap).getD p.2))
    let stillActive := updatedActive.filter (fun p => !p.2.status.isTerminal)
    let newlyDone := updatedActive.filter (fun p => p.2.status.isTerminal)
    let promoted := promoteLoop st.maxBatchSize st.waiting stillActive
    Except.ok { st with
      waiting := promoted.1
      active := promoted.2
      completed := st.completed ++ newlyDone }
  else
    Except.error ()

/-- Observable events of one engine run, in program order. -/
inductive Event where
  | seedSet (seed : Int)
  | addReq (requestId : Nat) (prompt : String) (promptTokens : List Nat)
  | stepCall (snapshot : Pool) (dynamic : Bool)
  | updateCall (resultMap : Pool)
deriving DecidableEq

/-- A generation-step collaborator: active-pool snapshot in, result map out. -/
abbrev StepFn := Pool → Pool

inductive EngineError where
  | consistencyViolation
  | fuelExhausted
deriving DecidableEq

/-- The engine of `mcore_engine.py`: the two text-generation-strategy entry
points it calls (`tokenize_prompt`, `generate_output_tokens_static_batch`,
`generate_output_tokens_dynamic_batch`), the optional random seed, and the
Scheduler created in `__init__` with the given `max_batch_size`. -/
structure MCoreEngine where
  tokenizePrompt : String → List Nat
  staticStep : StepFn
  dynamicStep : StepFn
  randomSeed : Option Int
  scheduler : SchedulerState

/-- Python truthiness of `self.random_seed` in `if self.random_seed:` —
`None` and `0` are falsy, every other int is truthy. -/
def seedTruthy : Option Int → Bool
  | none => false
  | some s => s != 0

/-- `MCoreEngine.run_engine`, embedded from the source: while
`have_requests_pending()`, copy the active pool, call the static-batch step
when `dynamic_generation` is false (the dynamic-batch step otherwise), and
pass the result dict to `update_requests_pools`.  `fuel` bounds the number of
iterations so the embedding is total; a run that would iterate further
returns `fuelExhausted`.  The final scheduler state and the event trace are
returned. -/
def runEngine (e : MCoreEngine) (dynamicGeneration : Bool) :
    Nat → SchedulerState → Except EngineError (SchedulerState × List Event)
  | 0, st =>
    if haveRequestsPending st then Except.error .fuelExhausted
    else Except.ok (st, [])
  | fuel + 1, st =>
    if haveRequestsPending st then
      let activeRequests := st.active
      let resultDict :=
        if !dynamicGeneration then e.staticStep activeRequests
        else e.dynamicStep activeRequests
      match updateRequestsPools resultDict st with
      | .error _ => Except.error .consistencyViolation
      | .ok st' =>
        match runEngine e dynamicGeneration fuel st' with
        | .ok (st'', tr) =>
          Except.ok (st'',
            Event.stepCall activeRequests dynamicGeneration ::
              Event.updateCall resultDict :: tr)
        | .error err => Except.error err
    else Except.ok (st, [])

/-- One iteration of the prompt loop of `MCoreEngine.generate`: tokenize the
prompt via the strategy and call `add_request`, recording the admission
event. -/
def submitStep (e : MCoreEngine) (params : Nat)
    (acc : SchedulerState × List Event) (prompt : String) :
    SchedulerState × List Event :=
  let promptTokens := e.tokenizePrompt prompt
  let r := addRequest prompt promptTokens params acc.1
  (r.2, acc.2 ++ [Event.addReq r.1 prompt promptTokens])

/-- `MCoreEngine.generate`, embedded from the source: set the seed when
`self.random_seed` is truthy, then for each prompt tokenize it and call
`add_request`, then call `run_engine()` (with its `dynamic_generation`
parameter left at its default `False`), and return the completed pool's
values.  The event trace records the seed effect, each admission, and the
loop's step and update calls, in program order. -/
def generate (e : MCoreEngine) (prompts : List String) (params : Nat)
    (fuel : Nat) :
    Except EngineError (List InferenceRequest × SchedulerState × List Event) :=
  let seedEvents : List Event :=
    if seedTruthy e.randomSeed then [Event.seedSet (e.randomSeed.getD 0)]
    else []
  let submitted := prompts.foldl (submitStep e params) (e.scheduler, [])
  match runEngine e false fuel submitted.1 with
  | .error err => Except.error err
  | .ok (st', loopEvents) =>
    Except.ok ((st'.completed).map Prod.snd, st',
      seedEvents ++ submitted.2 ++ loopEvents)

/-- Specification-side description of one run of the engine loop: from a
state with no pending request the loop emits no event and stops; from a state
with pending requests it makes exactly one step call whose snapshot is the
current active pool, passes exactly that step's result map to
`update_requests_pools`, and continues from the updated state. -/
inductive LoopTrace (step : StepFn) (dyn : Bool) :
    SchedulerState → List Event → SchedulerState → Prop where
  | done {st : SchedulerState} :
      haveRequestsPending st = false → LoopTrace step dyn st [] st
  | iter {st st' st'' : SchedulerState} {tr : List Event} :
      haveRequestsPending st = true →
      updateRequestsPools (step st.active) st = .ok st' →
      LoopTrace step dyn st' tr st'' →
      LoopTrace step dyn st
        (Event.stepCall st.active dyn :: Event.updateCall (step st.active) :: tr)
        st''

/-- The step function `run_engine` selects for a given `dynamic_generation`
flag: the static-batch strategy entry point when the flag is false, the
dynamic-batch one otherwise. -/
def selectedStep (e : MCoreEngine) (dyn : Bool) : StepFn :=
  if dyn then e.dynamicStep else e.staticStep

def Event.isSeedSet : Event → Bool
  | .seedSet _ => true
  | _ => false

def Event.isAddReq : Event → Bool
  | .addReq _ _ _ => true
  | _ => false

def Event.isStepCall : Event → Bool
  | .stepCall _ _ => true
  | _ => false

def Event.isDynamicStepCall : Event → Bool
  | .stepCall _ dyn => dyn
  | _ => false

/-- The (prompt, prompt tokens) pairs of the admission events of a trace, in
order. -/
def addEventsOf (tr : List Event) : List (String × List Nat) :=
  tr.filterMap (fun ev =>
    match ev with
    | .addReq _ prompt promptTokens => some (prompt, promptTokens)
    | _ => none)

/-- The event trace of an engine-run result (empty on failure). -/
def traceOf (r : Except EngineError (List InferenceRequest × SchedulerState × List Event)) :
    List Event :=
  match r with
  | .ok (_, _, tr) => tr
  | .error _ => []

/-- An engine-loop result that finished by the loop condition: the run
succeeded and the final state has no pending request. -/
def loopFinished (r : Except EngineError (SchedulerState × List Event)) : Bool :=
  match r with
  | .ok (st, _) => !haveRequestsPending st
  | .error _ => false

/-! ### A store of dict objects

Python's `self.scheduler.active_request_pool.copy()` allocates a new dict
object holding the same entries.  To reason about aliasing we model a store
of dict objects addressed by references: `copyDict` allocates a fresh
reference, and entry-level mutation through one reference leaves every other
reference's contents untouched. -/

/-- A store of dict objects; a reference is an index into `cells`. -/
structure DictStore where
  cells : List Pool
deriving DecidableEq

/-- Contents of the dict at reference `r` (empty for a dangling reference). -/
def DictStore.get (s : DictStore) (r : Nat) : Pool := (s.cells.getD r [])

/-- `d.copy()`: allocate a fresh dict holding the same entries; returns the
new store and the fresh reference. -/
def copyDict (s : DictStore) (r : Nat) : DictStore × Nat :=
  ({ cells := s.cells ++ [s.get r] }, s.cells.length)

/-- Set (add or overwrite) one entry of a pool. -/
def setEntry (k : Nat) (v : InferenceRequest) : Pool → Pool
  | [] => [(k, v)]
  | (k', r) :: rest => if k' = k then (k, v) :: rest else (k', r) :: setEntry k v rest

/-- Remove one entry of a pool. -/
def delEntry (k : Nat) (p : Pool) : Pool := p.filter (fun q => q.1 ≠ k)

/-- `d[k] = v` on the dict at reference `r`. -/
def storeSet (s : DictStore) (r k : Nat) (v : InferenceRequest) : DictStore :=
  { cells := s.cells.set r (setEntry k v (s.get r)) }

/-- `del d[k]` on the dict at reference `r`. -/
def storeDel (s : DictStore) (r k : Nat) : DictStore :=
  { cells := s.cells.set r (delEntry k (s.get r)) }

/-! ### Operation sequences on the scheduler -/

/-- One scheduler operation, as issued by the engine. -/
inductive SchedOp where
  | add (prompt : String) (promptTokens : List Nat) (params : Nat)
  | update (resultMap : Pool)

/-- Apply one operation to the scheduler state.  A failing
`update_requests_pools` raises, leaving every pool unchanged. -/
def applyOp (st : SchedulerState) : SchedOp → SchedulerState
  | .add prompt promptTokens params => (addRequest prompt promptTokens params st).2
  | .update resultMap =>
    match updateRequestsPools resultMap st with
    | .ok st' => st'
    | .error _ => st

/-- The scheduler state after a sequence of operations on a freshly
constructed scheduler. -/
def runOps (maxBatchSize : Nat) (ops : List SchedOp) : SchedulerState :=
  ops.foldl applyOp (mkScheduler maxBatchSize)

def Event.isUpdateCall : Event → Bool
  | .updateCall _ => true
  | _ => false

/-- The step-call and update-call events of a trace, in order. -/
def loopEventsOf (tr : List Event) : List Event :=
  tr.filter (fun ev => ev.isStepCall || ev.isUpdateCall)

/-- Specification-side description of prompt submission: tokenize each prompt
via the strategy and admit it with `add_request`, in submission order. -/
def submitPrompts (e : MCoreEngine) (params : Nat) :
    List String → SchedulerState → SchedulerState
  | [], st => st
  | prompt :: rest, st =>
    submitPrompts e params rest (addRequest prompt (e.tokenizePrompt prompt) params st).2

/-! ### Lemmas about the engine loop -/

theorem step_select (e : MCoreEngine) (dyn : Bool) (a : Pool) :
    (if (!dyn) = true then e.staticStep a else e.dynamicStep a) = selectedStep e dyn a := by
  cases dyn <;> rfl

theorem runEngine_ok_loopTrace (e : MCoreEngine) (dyn : Bool) :
    ∀ (fuel : Nat) (st st' : SchedulerState) (tr : List Event),
      runEngine e dyn fuel st = .ok (st', tr) →
      LoopTrace (selectedStep e dyn) dyn st tr st' ∧
        haveRequestsPending st' = false := by
  intro fuel
  induction fuel with
  | zero =>
    intro st st' tr h
    simp only [runEngine] at h
    by_cases hp : haveRequestsPending st = true
    · simp [hp] at h
    · simp only [hp, if_neg, Bool.false_eq_true, if_false, Except.ok.injEq,
        Prod.mk.injEq] at h
      obtain ⟨rfl, rfl⟩ := h
      exact ⟨LoopTrace.done (Bool.not_eq_true _ ▸ eq_false_of_ne_true hp),
        eq_false_of_ne_true hp⟩
  | succ n ih =>
    intro st st' tr h
    simp only [runEngine] at h
    by_cases hp : haveRequestsPending st = true
    · rw [if_pos hp, step_select] at h
      cases hu : updateRequestsPools (selectedStep e dyn st.active) st with
      | error u => simp [hu] at h
      | ok st1 =>
        simp only [hu] at h
        cases hr : runEngine e dyn n st1 with
        | error err => simp [hr] at h
        | ok p =>
          obtain ⟨st2, tr2⟩ := p
          simp only [hr] at h
          simp only [Except.ok.injEq, Prod.mk.injEq] at h
          obtain ⟨rfl, rfl⟩ := h
          obtain ⟨htrace, hdone⟩ := ih st1 st2 tr2 hr
          exact ⟨LoopTrace.iter hp hu htrace, hdone⟩
    · simp only [hp, if_neg, Bool.false_eq_true, if_false, Except.ok.injEq,
        Prod.mk.injEq] at h
      obtain ⟨rfl, rfl⟩ := h
      exact ⟨LoopTrace.done (eq_false_of_ne_true hp), eq_false_of_ne_true hp⟩

/-- Every event a loop trace emits is a step call or an update call. -/
theorem loopTrace_events {step : StepFn} {dyn : Bool}
    {st st' : SchedulerState} {tr : List Event} :
    LoopTrace step dyn st tr st' →
    ∀ ev ∈ tr, ev.isStepCall = true ∨ ev.isUpdateCall = true := by
  intro h
  induction h with
  | done _ => intro ev hev; cases hev
  | iter _ _ _ ihtr =>
    intro ev hev
    rcases hev with _ | ⟨_, hev⟩
    · exact Or.inl rfl
    · rcases hev with _ | ⟨_, hev⟩
      · exact Or.inr rfl
      · exact ihtr ev hev

/-! ### Lemmas about prompt submission and the trace of `generate` -/

theorem addEventsOf_append (a b : List Event) :
    addEventsOf (a ++ b) = addEventsOf a ++ addEventsOf b := by
  simp [addEventsOf]

theorem loopEventsOf_append (a b : List Event) :
    loopEventsOf (a ++ b) = loopEventsOf a ++ loopEventsOf b := by
  simp [loopEventsOf]

theorem submitFold_state (e : MCoreEngine) (params : Nat) :
    ∀ (prompts : List String) (st : SchedulerState) (acc : List Event),
      (prompts.foldl (submitStep e params) (st, acc)).1 =
        submitPrompts e params prompts st := by
  intro prompts
  induction prompts with
  | nil => intro st acc; rfl
  | cons p rest ih =>
    intro st acc
    simp only [List.foldl_cons, submitStep, submitPrompts]
    exact ih _ _

theorem submitFold_addEvents (e : MCoreEngine) (params : Nat) :
    ∀ (prompts : List String) (st : SchedulerState) (acc : List Event),
      addEventsOf (prompts.foldl (submitStep e params) (st, acc)).2 =
        addEventsOf acc ++ prompts.map (fun p => (p, e.tokenizePrompt p)) := by
  intro prompts
  induction prompts with
  | nil => intro st acc; simp
  | cons p rest ih =>
    intro st acc
    simp only [List.foldl_cons, List.map_cons]
    rw [submitStep, ih, addEventsOf_append]
    simp [addEventsOf]

theorem submitFold_loopEvents (e : MCoreEngine) (params : Nat) :
    ∀ (prompts : List String) (st : SchedulerState) (acc : List Event),
      loopEventsOf (prompts.foldl (submitStep e params) (st, acc)).2 =
        loopEventsOf acc := by
  intro prompts
  induction prompts with
  | nil => intro st acc; rfl
  | cons p rest ih =>
    intro st acc
    simp only [List.foldl_cons]
    rw [submitStep, ih, loopEventsOf_append]
    simp [loopEventsOf, Event.isStepCall, Event.isUpdateCall]

theorem loopEventsOf_of_loopTrace {step : StepFn} {dyn : Bool}
    {st st' : SchedulerState} {tr : List Event} (h : LoopTrace step dyn st tr st') :
    loopEventsOf tr = tr := by
  rw [loopEventsOf, List.filter_eq_self]
  intro ev hev
  rcases loopTrace_events h ev hev with h1 | h1 <;> simp [h1]

theorem addEventsOf_of_loopTrace {step : StepFn} {dyn : Bool}
    {st st' : SchedulerState} {tr : List Event} (h : LoopTrace step dyn st tr st') :
    addEventsOf tr = [] := by
  rw [addEventsOf, List.filterMap_eq_nil_iff]
  intro ev hev
  rcases loopTrace_events h ev hev with h1 | h1 <;>
    cases ev <;> simp_all [Event.isStepCall, Event.isUpdateCall]

/-- The events recording the seed effect of one `generate` call. -/
def seedEventsOf (e : MCoreEngine) : List Event :=
  if seedTruthy e.randomSeed then [Event.seedSet (e.randomSeed.getD 0)] else []

theorem addEventsOf_seedEvents (e : MCoreEngine) :
    addEventsOf (seedEventsOf e) = [] := by
  rw [seedEventsOf]
  split <;> simp [addEventsOf]

theorem loopEventsOf_seedEvents (e : MCoreEngine) :
    loopEventsOf (seedEventsOf e) = [] := by
  rw [seedEventsOf]
  split <;> simp [loopEventsOf, Event.isStepCall, Event.isUpdateCall]

/-- Decomposition of a successful `generate` run: the returned list is the
completed pool's values, the admission events tokenize and admit exactly the
given prompts in order, and the remaining trace is a loop trace of the
static-batch step from the submitted state to a state with nothing
pending. -/
theorem generate_ok_parts (e : MCoreEngine) (prompts : List String)
    (params fuel : Nat) (res : List InferenceRequest) (st' : SchedulerState)
    (tr : List Event) (h : generate e prompts params fuel = .ok (res, st', tr)) :
    res = st'.completed.map Prod.snd ∧
    addEventsOf tr = prompts.map (fun p => (p, e.tokenizePrompt p)) ∧
    LoopTrace e.staticStep false
      (submitPrompts e params prompts e.scheduler) (loopEventsOf tr) st' ∧
    haveRequestsPending st' = false := by
  rw [generate] at h
  cases hr : runEngine e false fuel
      (prompts.foldl (submitStep e params) (e.scheduler, [])).1 with
  | error err => simp [hr] at h
  | ok p =>
    obtain ⟨st2, loopTr⟩ := p
    simp only [hr, Except.ok.injEq, Prod.mk.injEq] at h
    obtain ⟨rfl, rfl, rfl⟩ := h
    obtain ⟨htrace, hdone⟩ := runEngine_ok_loopTrace e false _ _ _ _ hr
    rw [submitFold_state] at htrace
    have hsel : selectedStep e false = e.staticStep := rfl
    rw [hsel] at htrace
    refine ⟨rfl, ?_, ?_, hdone⟩
    · rw [show (if seedTruthy e.randomSeed then [Event.seedSet (e.randomSeed.getD 0)]
          else []) = seedEventsOf e from rfl]
      rw [addEventsOf_append, addEventsOf_append, addEventsOf_seedEvents,
        submitFold_addEvents, addEventsOf_of_loopTrace htrace]
      simp [addEventsOf]
    · rw [show (if seedTruthy e.randomSeed then [Event.seedSet (e.randomSeed.getD 0)]
          else []) = seedEventsOf e from rfl]
      rw [loopEventsOf_append, loopEventsOf_append, loopEventsOf_seedEvents,
        submitFold_loopEvents, loopEventsOf_of_loopTrace htrace]
      simpa [loopEventsOf] using htrace

/-! ### Keys, lookups and the remaining-work measure -/

theorem keyMem_iff (k : Nat) : ∀ l : List Nat, keyMem k l = true ↔ k ∈ l := by
  intro l
  induction l with
  | nil => simp [keyMem]
  | cons k' rest ih => simp [keyMem, ih, beq_iff_eq]

theorem sameKeys_left {a b : Pool} (h : sameKeys a b = true) :
    ∀ k ∈ Pool.keys a, k ∈ Pool.keys b := by
  intro k hk
  rw [sameKeys, Bool.and_eq_true, List.all_eq_true, List.all_eq_true] at h
  exact (keyMem_iff k _).mp (h.1 k hk)

theorem sameKeys_right {a b : Pool} (h : sameKeys a b = true) :
    ∀ k ∈ Pool.keys b, k ∈ Pool.keys a := by
  intro k hk
  rw [sameKeys, Bool.and_eq_true, List.all_eq_true, List.all_eq_true] at h
  exact (keyMem_iff k _).mp (h.2 k hk)

theorem sameKeys_of_keys_eq {a b : Pool} (h : Pool.keys a = Pool.keys b) :
    sameKeys a b = true := by
  rw [sameKeys, Bool.and_eq_true, List.all_eq_true, List.all_eq_true]
  constructor
  · intro k hk; exact (keyMem_iff k _).mpr (h ▸ hk)
  · intro k hk; exact (keyMem_iff k _).mpr (h ▸ hk)

theorem lookupId_isSome {k : Nat} : ∀ {p : Pool}, k ∈ Pool.keys p →
    ∃ r, lookupId k p = some r := by
  intro p
  induction p with
  | nil => intro h; cases h
  | cons q rest ih =>
    obtain ⟨k', r⟩ := q
    intro h
    by_cases hk : k' = k
    · exact ⟨r, by simp [lookupId, hk]⟩
    · have hmem : k ∈ Pool.keys rest := by
        rcases (by simpa [Pool.keys] using h : k = k' ∨ k ∈ Pool.keys rest) with h1 | h1
        · exact absurd h1.symm hk
        · exact h1
      obtain ⟨r', hr'⟩ := ih hmem
      exact ⟨r', by simp [lookupId, hk, hr']⟩

theorem lookupId_of_nodup {k : Nat} {r : InferenceRequest} :
    ∀ {p : Pool}, (Pool.keys p).Nodup → (k, r) ∈ p → lookupId k p = some r := by
  intro p
  induction p with
  | nil => intro _ h; cases h
  | cons q rest ih =>
    obtain ⟨k', r'⟩ := q
    intro hnd h
    rw [Pool.keys, List.map_cons, List.nodup_cons] at hnd
    rcases List.mem_cons.mp h with h1 | h1
    · injection h1 with hk hr
      subst hk; subst hr
      simp [lookupId]
    · have hne : k' ≠ k := by
        intro he
        have hkmem : k ∈ rest.map Prod.fst := List.mem_map.mpr ⟨(k, r), h1, rfl⟩
        exact hnd.1 (by rw [he]; exact hkmem)
      simp only [lookupId, if_neg hne]
      exact ih hnd.2 h1

theorem lookupId_map_exists {u : Nat × InferenceRequest → InferenceRequest}
    {k : Nat} {r' : InferenceRequest} :
    ∀ {l : Pool}, lookupId k (l.map (fun p => (p.1, u p))) = some r' →
      ∃ p ∈ l, p.1 = k ∧ r' = u p := by
  intro l
  induction l with
  | nil => intro h; cases h
  | cons q rest ih =>
    intro h
    simp only [List.map_cons, lookupId] at h
    by_cases hk : q.1 = k
    · rw [if_pos hk] at h
      injection h with h2
      exact ⟨q, List.mem_cons_self .., hk, h2.symm⟩
    · rw [if_neg hk] at h
      obtain ⟨p, hp, hpk, hpr⟩ := ih h
      exact ⟨p, List.mem_cons_of_mem _ hp, hpk, hpr⟩

theorem keys_map_update (u : Nat × InferenceRequest → InferenceRequest) :
    ∀ l : Pool, Pool.keys (l.map (fun p => (p.1, u p))) = Pool.keys l := by
  intro l
  induction l with
  | nil => rfl
  | cons q rest ih => simp_all [Pool.keys]

/-- Total remaining work of a pool under a per-request measure `w`: each
entry contributes its remaining work plus one. -/
def sumW (w : InferenceRequest → Nat) : Pool → Nat
  | [] => 0
  | (_, r) :: rest => w r + 1 + sumW w rest

theorem sumW_append (w : InferenceRequest → Nat) :
    ∀ a b : Pool, sumW w (a ++ b) = sumW w a + sumW w b := by
  intro a b
  induction a with
  | nil => simp [sumW]
  | cons q rest ih => obtain ⟨k, r⟩ := q; simp [sumW, ih]; omega

theorem sumW_eq_zero (w : InferenceRequest → Nat) :
    ∀ {p : Pool}, sumW w p = 0 → p = [] := by
  intro p h
  cases p with
  | nil => rfl
  | cons q rest => obtain ⟨k, r⟩ := q; simp [sumW] at h

/-- Loop variant for the engine loop: total remaining work of the waiting and
active pools, plus one extra unit when the active pool is empty while the
waiting pool is not (the next iteration only promotes in that situation). -/
def loopMeasure (w : InferenceRequest → Nat) (st : SchedulerState) : Nat :=
  sumW w st.waiting + sumW w st.active +
    (if st.active.isEmpty && !st.waiting.isEmpty then 1 else 0)

/-! ### Lemmas about FIFO promotion -/

theorem promoteLoop_sumW (w : InferenceRequest → Nat)
    (hw : ∀ (r : InferenceRequest) (s : Status), w { r with status := s } = w r)
    (m : Nat) : ∀ (wtg act : Pool),
    sumW w (promoteLoop m wtg act).1 + sumW w (promoteLoop m wtg act).2 =
      sumW w wtg + sumW w act := by
  intro wtg
  induction wtg with
  | nil => intro act; simp [promoteLoop, sumW]
  | cons q rest ih =>
    intro act
    obtain ⟨k, r⟩ := q
    by_cases hlt : act.length < m
    · rw [promoteLoop, if_pos hlt, ih]
      rw [sumW_append]
      simp only [sumW, hw]
      omega
    · rw [promoteLoop, if_neg hlt]

theorem promoteLoop_fills (m : Nat) : ∀ (wtg act : Pool),
    (promoteLoop m wtg act).1 ≠ [] → m ≤ (promoteLoop m wtg act).2.length := by
  intro wtg
  induction wtg with
  | nil => intro act h; exact absurd rfl h
  | cons q rest ih =>
    intro act h
    obtain ⟨k, r⟩ := q
    by_cases hlt : act.length < m
    · rw [promoteLoop, if_pos hlt] at h ⊢
      exact ih _ h
    · rw [promoteLoop, if_neg hlt]
      show m ≤ act.length
      omega

theorem promoteLoop_length_le (m : Nat) : ∀ (wtg act : Pool),
    act.length ≤ m → (promoteLoop m wtg act).2.length ≤ m := by
  intro wtg
  induction wtg with
  | nil => intro act h; exact h
  | cons q rest ih =>
    intro act h
    obtain ⟨k, r⟩ := q
    by_cases hlt : act.length < m
    · rw [promoteLoop, if_pos hlt]
      refine ih _ ?_
      simp only [List.length_append, List.length_cons, List.length_nil]
      omega
    · rw [promoteLoop, if_neg hlt]
      exact h

theorem promoteLoop_keys_perm (m : Nat) : ∀ (wtg act : Pool),
    (Pool.keys (promoteLoop m wtg act).1 ++ Pool.keys (promoteLoop m wtg act).2).Perm
      (Pool.keys wtg ++ Pool.keys act) := by
  intro wtg
  induction wtg with
  | nil => intro act; simp [promoteLoop]
  | cons q rest ih =>
    intro act
    obtain ⟨k, r⟩ := q
    by_cases hlt : act.length < m
    · rw [promoteLoop, if_pos hlt]
      refine (ih _).trans ?_
      simp only [Pool.keys, List.map_append, List.map_cons, List.map_nil,
        List.cons_append]
      rw [← List.append_assoc]
      exact List.perm_append_singleton ..
    · rw [promoteLoop, if_neg hlt]

/-! ### The successful branch of `update_requests_pools` -/

/-- The active pool with each entry replaced by its result-map version. -/
def updatedActivePool (res : Pool) (st : SchedulerState) : Pool :=
  st.active.map (fun p => (p.1, (lookupId p.1 res).getD p.2))

/-- The updated entries that are still non-terminal. -/
def stillActivePool (res : Pool) (st : SchedulerState) : Pool :=
  (updatedActivePool res st).filter (fun p => !p.2.status.isTerminal)

/-- The updated entries that reached a terminal status. -/
def donePool (res : Pool) (st : SchedulerState) : Pool :=
  (updatedActivePool res st).filter (fun p => p.2.status.isTerminal)

/-- The scheduler state produced by a successful `update_requests_pools`. -/
def updatedState (res : Pool) (st : SchedulerState) : SchedulerState :=
  { st with
    waiting := (promoteLoop st.maxBatchSize st.waiting (stillActivePool res st)).1
    active := (promoteLoop st.maxBatchSize st.waiting (stillActivePool res st)).2
    completed := st.completed ++ donePool res st }

theorem updateRequestsPools_eq_ok {res : Pool} {st : SchedulerState}
    (hcov : sameKeys res st.active = true) :
    updateRequestsPools res st = .ok (updatedState res st) := by
  rw [updateRequestsPools, if_pos hcov]
  rfl

/-- Well-formedness of the scheduler's dict-backed pools: no request id
occurs twice across the waiting and active pools. -/
def PoolsWF (st : SchedulerState) : Prop :=
  (Pool.keys st.waiting ++ Pool.keys st.active).Nodup

theorem keys_stillActive_sublist (res : Pool) (st : SchedulerState) :
    List.Sublist (Pool.keys (stillActivePool res st)) (Pool.keys st.active) := by
  have h1 : List.Sublist (stillActivePool res st) (updatedActivePool res st) :=
    List.filter_sublist _
  have h2 : List.Sublist (Pool.keys (stillActivePool res st))
      (Pool.keys (updatedActivePool res st)) := h1.map Prod.fst
  have h3 : Pool.keys (updatedActivePool res st) = Pool.keys st.active :=
    keys_map_update (fun p => (lookupId p.1 res).getD p.2) st.active
  rw [h3] at h2
  exact h2

theorem poolsWF_updatedState {res : Pool} {st : SchedulerState}
    (hwf : PoolsWF st) : PoolsWF (updatedState res st) := by
  have hnd : (Pool.keys st.waiting ++ Pool.keys (stillActivePool res st)).Nodup :=
    hwf.sublist ((List.Sublist.refl _).append (keys_stillActive_sublist res st))
  exact ((promoteLoop_keys_perm st.maxBatchSize st.waiting
    (stillActivePool res st)).symm.nodup hnd)

/-! ### One iteration strictly decreases the loop variant -/

theorem sumW_still_le (w : InferenceRequest → Nat)
    (u : Nat × InferenceRequest → InferenceRequest) :
    ∀ l : Pool, (∀ p ∈ l, (u p).status.isTerminal = true ∨ w (u p) < w p.2) →
      sumW w ((l.map (fun p => (p.1, u p))).filter
        (fun p => !p.2.status.isTerminal)) ≤ sumW w l := by
  intro l
  induction l with
  | nil => intro _; simp [sumW]
  | cons q rest ih =>
    intro H
    obtain ⟨k, r⟩ := q
    have Hq := H (k, r) (List.mem_cons_self ..)
    have Hrest := ih (fun p hp => H p (List.mem_cons_of_mem _ hp))
    simp only [List.map_cons]
    by_cases ht : (u (k, r)).status.isTerminal = true
    · rw [List.filter_cons_of_neg (by simp [ht])]
      simp only [sumW]
      omega
    · rw [List.filter_cons_of_pos (by simp [ht])]
      have hlt : w (u (k, r)) < w r := by
        rcases Hq with h1 | h1
        · exact absurd h1 ht
        · exact h1
      simp only [sumW]
      omega

theorem sumW_still_lt (w : InferenceRequest → Nat)
    (u : Nat × InferenceRequest → InferenceRequest) :
    ∀ l : Pool, l ≠ [] →
      (∀ p ∈ l, (u p).status.isTerminal = true ∨ w (u p) < w p.2) →
      sumW w ((l.map (fun p => (p.1, u p))).filter
        (fun p => !p.2.status.isTerminal)) < sumW w l := by
  intro l
  cases l with
  | nil => intro h; exact absurd rfl h
  | cons q rest =>
    intro _ H
    obtain ⟨k, r⟩ := q
    have Hq := H (k, r) (List.mem_cons_self ..)
    have Hrest := sumW_still_le w u rest (fun p hp => H p (List.mem_cons_of_mem _ hp))
    simp only [List.map_cons]
    by_cases ht : (u (k, r)).status.isTerminal = true
    · rw [List.filter_cons_of_neg (by simp [ht])]
      simp only [sumW]
      omega
    · rw [List.filter_cons_of_pos (by simp [ht])]
      have hlt : w (u (k, r)) < w r := by
        rcases Hq with h1 | h1
        · exact absurd h1 ht
        · exact h1
      simp only [sumW]
      omega

theorem update_decreases (w : InferenceRequest → Nat)
    (hw : ∀ (r : InferenceRequest) (s : Status), w { r with status := s } = w r)
    {res : Pool} {st : SchedulerState}
    (hmax : 1 ≤ st.maxBatchSize) (hwf : PoolsWF st)
    (hcov : sameKeys res st.active = true)
    (hprog : ∀ k r r', lookupId k st.active = some r → lookupId k res = some r' →
      r'.status.isTerminal = true ∨ w r' < w r)
    (hp : haveRequestsPending st = true) :
    loopMeasure w (updatedState res st) < loopMeasure w st := by
  have hndA : (Pool.keys st.active).Nodup := (List.nodup_append.mp hwf).2.1
  have H : ∀ p ∈ st.active,
      ((lookupId p.1 res).getD p.2).status.isTerminal = true ∨
        w ((lookupId p.1 res).getD p.2) < w p.2 := by
    intro p hmem
    obtain ⟨k, r⟩ := p
    have hlk : lookupId k st.active = some r := lookupId_of_nodup hndA hmem
    have hkmem : k ∈ Pool.keys st.active := List.mem_map.mpr ⟨(k, r), hmem, rfl⟩
    have hkres : k ∈ Pool.keys res := sameKeys_right hcov k hkmem
    obtain ⟨r', hr'⟩ := lookupId_isSome hkres
    simpa [hr'] using hprog k r r' hlk hr'
  have hcons := promoteLoop_sumW w hw st.maxBatchSize st.waiting
    (stillActivePool res st)
  have hind' : (if (updatedState res st).active.isEmpty &&
      !(updatedState res st).waiting.isEmpty then 1 else 0) = 0 := by
    by_cases hP1 : (updatedState res st).waiting = []
    · simp [hP1]
    · have hfill := promoteLoop_fills st.maxBatchSize st.waiting
        (stillActivePool res st) hP1
      have hne : (updatedState res st).active ≠ [] := by
        intro he
        rw [updatedState] at he
        simp only at he
        rw [he] at hfill
        simp at hfill
        omega
      simp [List.isEmpty_iff, hne]
  by_cases hA : st.active = []
  · have hie : st.waiting.isEmpty = false := by
      rw [haveRequestsPending, hA] at hp
      cases hwl : st.waiting with
      | nil => rw [hwl] at hp; simp at hp
      | cons a l => rfl
    have hstill : stillActivePool res st = [] := by
      rw [stillActivePool, updatedActivePool, hA]
      rfl
    rw [loopMeasure, loopMeasure, hind', updatedState]
    simp only
    rw [hA, hstill]
    rw [hstill] at hcons
    have h0 : sumW w ([] : Pool) = 0 := rfl
    rw [h0] at hcons ⊢
    simp only [List.isEmpty_nil, hie, Bool.not_false, Bool.and_true, if_true]
    omega
  · have hlt : sumW w (stillActivePool res st) < sumW w st.active :=
      sumW_still_lt w _ st.active hA H
    rw [loopMeasure, loopMeasure, hind']
    rw [updatedState]
    simp only
    omega

/-! ### Termination of the engine loop -/

/-- The generation-step contract (§6) together with the progress condition of
§8: every call's result map covers exactly the snapshot's ids, and each
reported request either reached a terminal status or strictly decreased its
remaining work, as measured by `w`.  The no-progress-forever collaborators
the spec excludes by contract are exactly those admitting no such measure. -/
def StepProgress (w : InferenceRequest → Nat) (step : StepFn) : Prop :=
  ∀ snapshot : Pool,
    sameKeys (step snapshot) snapshot = true ∧
    ∀ k r r', lookupId k snapshot = some r →
      lookupId k (step snapshot) = some r' →
      r'.status.isTerminal = true ∨ w r' < w r

theorem runEngine_finishes_aux (e : MCoreEngine) (dyn : Bool)
    (w : InferenceRequest → Nat)
    (hw : ∀ (r : InferenceRequest) (s : Status), w { r with status := s } = w r)
    (hprog : StepProgress w (selectedStep e dyn)) :
    ∀ (fuel : Nat) (st : SchedulerState), loopMeasure w st ≤ fuel →
      1 ≤ st.maxBatchSize → PoolsWF st →
      loopFinished (runEngine e dyn fuel st) = true := by
  intro fuel
  induction fuel with
  | zero =>
    intro st hle hmax hwf
    have h0 : loopMeasure w st = 0 := Nat.le_zero.mp hle
    rw [loopMeasure] at h0
    have hwE : st.waiting = [] := sumW_eq_zero w (by omega)
    have haE : st.active = [] := sumW_eq_zero w (by omega)
    have hp : haveRequestsPending st = false := by
      rw [haveRequestsPending, hwE, haE]
      rfl
    simp [runEngine, hp, loopFinished]
  | succ n ih =>
    intro st hle hmax hwf
    by_cases hp : haveRequestsPending st = true
    · have hps := hprog st.active
      have hupd := updateRequestsPools_eq_ok hps.1
      have hdec : loopMeasure w (updatedState (selectedStep e dyn st.active) st) <
          loopMeasure w st :=
        update_decreases w hw hmax hwf hps.1 hps.2 hp
      have hfin := ih (updatedState (selectedStep e dyn st.active) st)
        (by omega) hmax (poolsWF_updatedState hwf)
      simp only [runEngine, hp, if_true, step_select, hupd]
      cases hr : runEngine e dyn n (updatedState (selectedStep e dyn st.active) st) with
      | ok p =>
        obtain ⟨st2, tr⟩ := p
        rw [hr] at hfin
        simpa [loopFinished] using hfin
      | error err =>
        rw [hr] at hfin
        simp [loopFinished] at hfin
    · simp only [runEngine, hp]
      simp only [Bool.false_eq_true, if_false, loopFinished]
      simp [eq_false_of_ne_true hp]

/-! ### The capacity invariant -/

theorem addRequest_snd_maxBatchSize (prompt : String) (promptTokens : List Nat)
    (params : Nat) (st : SchedulerState) :
    ((addRequest prompt promptTokens params st).2).maxBatchSize =
      st.maxBatchSize := by
  simp only [addRequest]
  by_cases hlt : st.active.length < st.maxBatchSize
  · rw [if_pos hlt]
  · rw [if_neg hlt]

theorem addRequest_active_le (prompt : String) (promptTokens : List Nat)
    (params : Nat) {st : SchedulerState}
    (h : st.active.length ≤ st.maxBatchSize) :
    ((addRequest prompt promptTokens params st).2).active.length ≤
      st.maxBatchSize := by
  simp only [addRequest]
  by_cases hlt : st.active.length < st.maxBatchSize
  · rw [if_pos hlt]
    simp only [List.length_append, List.length_cons, List.length_nil]
    omega
  · rw [if_neg hlt]
    exact h

theorem updatedState_active_le {res : Pool} {st : SchedulerState}
    (h : st.active.length ≤ st.maxBatchSize) :
    (updatedState res st).active.length ≤ st.maxBatchSize := by
  have h1 : (stillActivePool res st).length ≤ (updatedActivePool res st).length :=
    List.length_filter_le _ _
  have h2 : (updatedActivePool res st).length = st.active.length := by
    rw [updatedActivePool, List.length_map]
  exact promoteLoop_length_le st.maxBatchSize st.waiting (stillActivePool res st)
    (by omega)

theorem applyOp_maxBatchSize (st : SchedulerState) (op : SchedOp) :
    (applyOp st op).maxBatchSize = st.maxBatchSize := by
  cases op with
  | add prompt promptTokens params => exact addRequest_snd_maxBatchSize ..
  | update res =>
    simp only [applyOp]
    by_cases hcov : sameKeys res st.active = true
    · rw [updateRequestsPools_eq_ok hcov]
      rfl
    · rw [updateRequestsPools, if_neg hcov]

theorem applyOp_active_le {st : SchedulerState} (op : SchedOp)
    (h : st.active.length ≤ st.maxBatchSize) :
    (applyOp st op).active.length ≤ st.maxBatchSize := by
  cases op with
  | add prompt promptTokens params => exact addRequest_active_le _ _ _ h
  | update res =>
    simp only [applyOp]
    by_cases hcov : sameKeys res st.active = true
    · rw [updateRequestsPools_eq_ok hcov]
      exact updatedState_active_le h
    · rw [updateRequestsPools, if_neg hcov]
      exact h

theorem applyOps_invariant : ∀ (ops : List SchedOp) (st : SchedulerState),
    st.active.length ≤ st.maxBatchSize →
    (ops.foldl applyOp st).maxBatchSize = st.maxBatchSize ∧
    (ops.foldl applyOp st).active.length ≤ st.maxBatchSize := by
  intro ops
  induction ops with
  | nil => intro st h; exact ⟨rfl, h⟩
  | cons op rest ih =>
    intro st h
    simp only [List.foldl_cons]
    have h1 : (applyOp st op).maxBatchSize = st.maxBatchSize :=
      applyOp_maxBatchSize st op
    have h2 : (applyOp st op).active.length ≤ st.maxBatchSize :=
      applyOp_active_le op h
    obtain ⟨ha, hb⟩ := ih (applyOp st op) (by rw [h1]; exact h2)
    exact ⟨by rw [ha, h1], by rw [h1] at hb; exact hb⟩

/-! ### Consistency violations leave the pools unchanged -/

theorem sameKeys_false_of_mismatch {res : Pool} {st : SchedulerState}
    (h : (∃ k ∈ Pool.keys st.active, k ∉ Pool.keys res) ∨
      (∃ k ∈ Pool.keys res, k ∉ Pool.keys st.active)) :
    ¬ sameKeys res st.active = true := by
  intro ht
  rcases h with ⟨k, hk1, hk2⟩ | ⟨k, hk1, hk2⟩
  · exact hk2 (sameKeys_right ht k hk1)
  · exact hk2 (sameKeys_left ht k hk1)

/-! ### Dict copies are independent objects -/

theorem copyDict_get (s : DictStore) (r : Nat) :
    (copyDict s r).1.get (copyDict s r).2 = s.get r := by
  rw [copyDict]
  simp only [DictStore.get]
  rw [List.getD_eq_getElem?_getD, List.getElem?_concat_length]
  rfl

theorem copyDict_fresh {s : DictStore} {r : Nat} (h : r < s.cells.length) :
    (copyDict s r).2 ≠ r := by
  rw [copyDict]
  simp only
  omega

theorem get_set_cells_ne {cs : List Pool} {r r' : Nat} (hne : r' ≠ r)
    (p : Pool) :
    (DictStore.mk (cs.set r' p)).get r = (DictStore.mk cs).get r := by
  simp only [DictStore.get]
  rw [List.getD_eq_getElem?_getD, List.getD_eq_getElem?_getD,
    List.getElem?_set_ne hne]

theorem storeSet_get_ne (s : DictStore) {r r' : Nat} (hne : r' ≠ r)
    (k : Nat) (v : InferenceRequest) :
    (storeSet s r' k v).get r = s.get r :=
  get_set_cells_ne hne _

theorem storeDel_get_ne (s : DictStore) {r r' : Nat} (hne : r' ≠ r) (k : Nat) :
    (storeDel s r' k).get r = s.get r :=
  get_set_cells_ne hne _

/-! ### Further engine-loop lemmas -/

/-- From a state with no pending request, any fuel suffices: the loop exits
immediately with no event. -/
theorem runEngine_not_pending (e : MCoreEngine) (dyn : Bool) (fuel : Nat)
    {st : SchedulerState} (h : haveRequestsPending st = false) :
    runEngine e dyn fuel st = .ok (st, []) := by
  cases fuel <;> simp [runEngine, h]

/-- A static-mode run depends only on the static step of the strategy. -/
theorem runEngine_static_congr (e1 e2 : MCoreEngine)
    (hs : e1.staticStep = e2.staticStep) :
    ∀ (fuel : Nat) (st : SchedulerState),
      runEngine e1 false fuel st = runEngine e2 false fuel st := by
  intro fuel
  induction fuel with
  | zero => intro st; rfl
  | succ n ih => intro st; simp [runEngine, hs, ih]

/-- Every event recorded by the submission fold is an admission event,
provided the accumulator's are. -/
theorem submitFold_events_addReq (e : MCoreEngine) (params : Nat) :
    ∀ (prompts : List String) (st : SchedulerState) (acc : List Event),
      (∀ ev ∈ acc, ev.isAddReq = true) →
      ∀ ev ∈ (prompts.foldl (submitStep e params) (st, acc)).2,
        ev.isAddReq = true := by
  intro prompts
  induction prompts with
  | nil => intro st acc hacc; exact hacc
  | cons p rest ih =>
    intro st acc hacc
    simp only [List.foldl_cons]
    refine ih _ _ ?_
    intro ev hev
    simp only [submitStep] at hev
    rcases List.mem_append.mp hev with h1 | h1
    · exact hacc ev h1
    · rcases h1 with _ | ⟨_, h2⟩
      · rfl
      · cases h2

/-- A static-mode loop trace contains no dynamic step call. -/
theorem loopTrace_no_dynamic {step : StepFn} {st st' : SchedulerState}
    {tr : List Event} (h : LoopTrace step false st tr st') :
    ∀ ev ∈ tr, ev.isDynamicStepCall = false := by
  induction h with
  | done _ => intro ev hev; cases hev
  | iter _ _ _ ihtr =>
    intro ev hev
    rcases hev with _ | ⟨_, hev⟩
    · rfl
    · rcases hev with _ | ⟨_, hev⟩
      · rfl
      · exact ihtr ev hev

/-! ### Concrete instances for the example runs -/

/-- A concrete prompt. -/
def egPrompt : String := "hi"

/-- A concrete tokenizing strategy: one token, the prompt's length. -/
def egTokenize (s : String) : List Nat := [s.length]

/-- A concrete generation step: append token 7 to each snapshot request and
mark it completed. -/
def egStep : StepFn := fun snapshot =>
  snapshot.map (fun p =>
    (p.1,
      { p.2 with
        outputTokens := p.2.outputTokens ++ [7]
        status := Status.completed }))

/-- A concrete engine: capacity 2, seed 5, both strategy entry points backed
by `egStep`. -/
def egEngine : MCoreEngine :=
  { tokenizePrompt := egTokenize
    staticStep := egStep
    dynamicStep := egStep
    randomSeed := some 5
    scheduler := mkScheduler 2 }

/-- The request admitted for `egPrompt`. -/
def egReq0 : InferenceRequest :=
  { requestId := 0, prompt := egPrompt, promptTokens := [2]
    inferenceParams := 0, outputTokens := [], status := .active }

/-- The same request after one `egStep` call. -/
def egReq0Done : InferenceRequest :=
  { egReq0 with outputTokens := [7], status := .completed }

/-- The scheduler state after admitting `egPrompt`. -/
def egSubmitted : SchedulerState :=
  { maxBatchSize := 2, requestCounter := 1, waiting := []
    active := [(0, egReq0)], completed := [] }

/-- The scheduler state after the loop completes the request. -/
def egFinal : SchedulerState :=
  { maxBatchSize := 2, requestCounter := 1, waiting := []
    active := [], completed := [(0, egReq0Done)] }

/-- The full event trace of `generate egEngine [egPrompt] 0 2`. -/
def egTrace : List Event :=
  [Event.seedSet 5, Event.addReq 0 egPrompt [2],
    Event.stepCall [(0, egReq0)] false, Event.updateCall [(0, egReq0Done)]]

/-- A one-dict store holding the active pool `[(0, egReq0)]` at reference 0. -/
def egStore : DictStore := { cells := [[(0, egReq0)]] }

/-- `egStep` satisfies the generation-step contract with progress, for every
remaining-work measure: it marks every snapshot request terminal. -/
theorem egStep_progress (w : InferenceRequest → Nat) : StepProgress w egStep := by
  intro snapshot
  constructor
  · exact sameKeys_of_keys_eq (keys_map_update _ _)
  · intro k r r' hsnap hres
    obtain ⟨p, hp, hpk, hpr⟩ := lookupId_map_exists hres
    left
    rw [hpr]
    rfl

/-- Every step and update event of a `generate` trace comes from the
static-mode loop, so none is a dynamic step call. -/
theorem generate_trace_no_dynamic (e : MCoreEngine) (prompts : List String)
    (params fuel : Nat) :
    (traceOf (generate e prompts params fuel)).all
      (fun ev => !ev.isDynamicStepCall) = true := by
  cases hg : generate e prompts params fuel with
  | error err => simp only [traceOf]; rfl
  | ok p =>
    obtain ⟨res, st', tr⟩ := p
    simp only [traceOf]
    rw [generate] at hg
    cases hr : runEngine e false fuel
        (prompts.foldl (submitStep e params) (e.scheduler, [])).1 with
    | error err => simp [hr] at hg
    | ok q =>
      obtain ⟨st2, loopTr⟩ := q
      simp only [hr, Except.ok.injEq, Prod.mk.injEq] at hg
      obtain ⟨h1, h2, h3⟩ := hg
      rw [← h3]
      simp only [List.all_append, Bool.and_eq_true]
      refine ⟨⟨?_, ?_⟩, ?_⟩
      · cases hseed : seedTruthy e.randomSeed <;>
          simp [hseed, Event.isDynamicStepCall]
      · rw [List.all_eq_true]
        intro ev hev
        have hadd := submitFold_events_addReq e params prompts e.scheduler []
          (by intro ev h; cases h) ev hev
        cases ev <;> simp_all [Event.isAddReq, Event.isDynamicStepCall]
      · rw [List.all_eq_true]
        intro ev hev
        have hTrace := (runEngine_ok_loopTrace e false fuel _ _ _ hr).1
        simp [loopTrace_no_dynamic hTrace ev hev]

/-! ### The claims -/

/-- C1: for every state of the scheduler, each iteration of the engine loop
(`run_engine`) does exactly this and nothing else: while
`have_requests_pending()` is true it takes a snapshot of the active pool,
makes exactly one generation-step call with that snapshot (the static-batch
step when dynamic mode is not selected, the dynamic-batch step otherwise),
and passes the returned result map to `update_requests_pools`; the loop
exits exactly when `have_requests_pending()` is false, so no generation-step
call is ever made while no request is waiting or active. -/
theorem run_engine_loop_shape (e : MCoreEngine) (dyn : Bool) (fuel : Nat)
    (st st' : SchedulerState) (tr : List Event)
    (h : runEngine e dyn fuel st = .ok (st', tr)) :
    LoopTrace (selectedStep e dyn) dyn st tr st' ∧
      haveRequestsPending st' = false :=
  runEngine_ok_loopTrace e dyn fuel st st' tr h

/-- Witness for C1: the concrete one-request run. -/
theorem run_engine_loop_shape_witness :
    LoopTrace (selectedStep egEngine false) false egSubmitted
      [Event.stepCall [(0, egReq0)] false, Event.updateCall [(0, egReq0Done)]]
      egFinal ∧
    haveRequestsPending egFinal = false :=
  run_engine_loop_shape egEngine false 2 egSubmitted egFinal
    [Event.stepCall [(0, egReq0)] false, Event.updateCall [(0, egReq0Done)]]
    (by rfl)

/-- C2: a successful `generate` call tokenizes each prompt via the
strategy's `tokenize_prompt`, calls `add_request` exactly once per prompt in
submission order, runs the engine loop to exhaustion from the submitted
scheduler state, and returns the contents of the scheduler's completed
pool. -/
theorem generate_composition (e : MCoreEngine) (prompts : List String)
    (params fuel : Nat) (res : List InferenceRequest) (st' : SchedulerState)
    (tr : List Event)
    (h : generate e prompts params fuel = .ok (res, st', tr)) :
    addEventsOf tr = prompts.map (fun p => (p, e.tokenizePrompt p)) ∧
    LoopTrace e.staticStep false
      (submitPrompts e params prompts e.scheduler) (loopEventsOf tr) st' ∧
    haveRequestsPending st' = false ∧
    res = st'.completed.map Prod.snd := by
  obtain ⟨h1, h2, h3, h4⟩ := generate_ok_parts e prompts params fuel res st' tr h
  exact ⟨h2, h3, h4, h1⟩

/-- Witness for C2: the concrete one-prompt run. -/
theorem generate_composition_witness :
    addEventsOf egTrace =
      [egPrompt].map (fun p => (p, egEngine.tokenizePrompt p)) ∧
    LoopTrace egEngine.staticStep false
      (submitPrompts egEngine 0 [egPrompt] egEngine.scheduler)
      (loopEventsOf egTrace) egFinal ∧
    haveRequestsPending egFinal = false ∧
    [egReq0Done] = egFinal.completed.map Prod.snd :=
  generate_composition egEngine [egPrompt] 0 2 [egReq0Done] egFinal egTrace
    (by rfl)

/-- C3: for an empty prompt list on a freshly constructed engine, `generate`
performs no `add_request` call, `have_requests_pending()` is false on the
first loop check, no generation-step call is ever invoked, and the returned
completed set is empty. -/
theorem generate_empty_prompts (tok : String → List Nat) (ss ds : StepFn)
    (seed : Option Int) (m params fuel : Nat) :
    generate ⟨tok, ss, ds, seed, mkScheduler m⟩ [] params fuel =
      .ok ([], mkScheduler m,
        if seedTruthy seed then [Event.seedSet (seed.getD 0)] else []) ∧
    haveRequestsPending (mkScheduler m) = false ∧
    (traceOf (generate ⟨tok, ss, ds, seed, mkScheduler m⟩ [] params fuel)).all
      (fun ev => !(ev.isStepCall || ev.isAddReq)) = true := by
  have hp : haveRequestsPending (mkScheduler m) = false := rfl
  have hg : generate ⟨tok, ss, ds, seed, mkScheduler m⟩ [] params fuel =
      .ok ([], mkScheduler m,
        if seedTruthy seed then [Event.seedSet (seed.getD 0)] else []) := by
    simp only [generate, List.foldl_nil]
    rw [runEngine_not_pending _ _ _ hp]
    simp [mkScheduler]
  refine ⟨hg, hp, ?_⟩
  rw [hg]
  simp only [traceOf]
  cases hseed : seedTruthy seed
  · rfl
  · rfl

/-- C4: `run_engine` terminates in finitely many iterations — fuel equal to
the loop variant makes the run finish by the loop condition — for every
initial scheduler state (with well-formed dict pools and positive capacity),
given a generation step that on every call reports, for each request in its
snapshot, progress (a strict decrease of a status-independent remaining-work
measure `w`) or a terminal status; no-progress-forever inputs are excluded
by this contract, as the spec excludes them. -/
theorem run_engine_terminates (e : MCoreEngine) (dyn : Bool)
    (w : InferenceRequest → Nat) (st : SchedulerState)
    (hw : ∀ (r : InferenceRequest) (s : Status), w { r with status := s } = w r)
    (hprog : StepProgress w (selectedStep e dyn))
    (hmax : 1 ≤ st.maxBatchSize) (hwf : PoolsWF st) :
    loopFinished (runEngine e dyn (loopMeasure w st) st) = true :=
  runEngine_finishes_aux e dyn w hw hprog (loopMeasure w st) st
    (Nat.le_refl _) hmax hwf

/-- Witness for C4: the concrete one-request run with the all-terminal
step. -/
theorem run_engine_terminates_witness :
    loopFinished (runEngine egEngine false
      (loopMeasure (fun _ => 0) egSubmitted) egSubmitted) = true :=
  run_engine_terminates egEngine false (fun _ => 0) egSubmitted
    (fun _ _ => rfl) (egStep_progress _) (by decide) (by rw [PoolsWF]; decide)

/-- C5: `active_request_pool.copy()` hands the generation step a dict object
distinct from the scheduler's own active-pool dict: it is a fresh reference
with the same entries; adding or removing entries through the snapshot
reference leaves the scheduler's pool unchanged, and mutating the
scheduler's pool afterwards leaves the snapshot's request-id set (indeed its
contents) unchanged — mutations are communicated only via the returned
result map. -/
theorem snapshot_copy_independent (s : DictStore) (r : Nat)
    (h : r < s.cells.length) :
    (copyDict s r).2 ≠ r ∧
    (copyDict s r).1.get (copyDict s r).2 = s.get r ∧
    (∀ (k : Nat) (v : InferenceRequest),
      (storeSet (copyDict s r).1 (copyDict s r).2 k v).get r =
        (copyDict s r).1.get r) ∧
    (∀ k : Nat,
      (storeDel (copyDict s r).1 (copyDict s r).2 k).get r =
        (copyDict s r).1.get r) ∧
    (∀ (k : Nat) (v : InferenceRequest),
      Pool.keys ((storeSet (copyDict s r).1 r k v).get (copyDict s r).2) =
        Pool.keys ((copyDict s r).1.get (copyDict s r).2)) ∧
    (∀ k : Nat,
      Pool.keys ((storeDel (copyDict s r).1 r k).get (copyDict s r).2) =
        Pool.keys ((copyDict s r).1.get (copyDict s r).2)) := by
  have hfresh : (copyDict s r).2 ≠ r := copyDict_fresh h
  refine ⟨hfresh, copyDict_get s r, ?_, ?_, ?_, ?_⟩
  · intro k v
    exact storeSet_get_ne _ hfresh k v
  · intro k
    exact storeDel_get_ne _ hfresh k
  · intro k v
    rw [storeSet_get_ne _ (Ne.symm hfresh) k v]
  · intro k
    rw [storeDel_get_ne _ (Ne.symm hfresh) k]

/-- Witness for C5: the one-dict store holding the active pool. -/
theorem snapshot_copy_independent_witness :
    (copyDict egStore 0).2 ≠ 0 ∧
    (copyDict egStore 0).1.get (copyDict egStore 0).2 = egStore.get 0 ∧
    (∀ (k : Nat) (v : InferenceRequest),
      (storeSet (copyDict egStore 0).1 (copyDict egStore 0).2 k v).get 0 =
        (copyDict egStore 0).1.get 0) ∧
    (∀ k : Nat,
      (storeDel (copyDict egStore 0).1 (copyDict egStore 0).2 k).get 0 =
        (copyDict egStore 0).1.get 0) ∧
    (∀ (k : Nat) (v : InferenceRequest),
      Pool.keys ((storeSet (copyDict egStore 0).1 0 k v).get
          (copyDict egStore 0).2) =
        Pool.keys ((copyDict egStore 0).1.get (copyDict egStore 0).2)) ∧
    (∀ k : Nat,
      Pool.keys ((storeDel (copyDict egStore 0).1 0 k).get
          (copyDict egStore 0).2) =
        Pool.keys ((copyDict egStore 0).1.get (copyDict egStore 0).2)) :=
  snapshot_copy_independent egStore 0 (by decide)

/-- C6 counterexample: an engine configured with `random_seed = 0` — which
is not None — applies no seed at all during `generate` (its trace has no
seed event), because the source guards with Python truthiness
(`if self.random_seed:`); this refutes the claim that every non-None
configured seed is applied. -/
theorem seed_zero_counterexample :
    ({ egEngine with randomSeed := some 0 } : MCoreEngine).randomSeed ≠
      none ∧
    (traceOf (generate { egEngine with randomSeed := some 0 }
      [egPrompt] 0 2)).all (fun ev => !ev.isSeedSet) = true := by
  constructor
  · simp
  · rfl

/-- C6 (amended): for every configured seed value that is truthy — `some s`
with `s ≠ 0` — `generate` applies that seed exactly once, as its very first
effect, before tokenizing or admitting any prompt and before any
generation-step call; a configured seed of 0 is never applied. -/
theorem seed_applied_once_first (e : MCoreEngine) (prompts : List String)
    (params fuel : Nat) (s : Int) (res : List InferenceRequest)
    (st' : SchedulerState) (tr : List Event)
    (hseed : e.randomSeed = some s) (hs : s ≠ 0)
    (h : generate e prompts params fuel = .ok (res, st', tr)) :
    tr.head? = some (Event.seedSet s) ∧
    (tr.drop 1).all (fun ev => !ev.isSeedSet) = true := by
  rw [generate] at h
  cases hr : runEngine e false fuel
      (prompts.foldl (submitStep e params) (e.scheduler, [])).1 with
  | error err => simp [hr] at h
  | ok q =>
    obtain ⟨st2, loopTr⟩ := q
    simp only [hr, Except.ok.injEq, Prod.mk.injEq] at h
    obtain ⟨h1, h2, h3⟩ := h
    have hif : (if seedTruthy e.randomSeed = true
        then [Event.seedSet (e.randomSeed.getD 0)] else []) =
        [Event.seedSet s] := by
      rw [hseed]
      rw [if_pos (by simp [seedTruthy, hs])]
      rfl
    rw [hif] at h3
    rw [← h3]
    constructor
    · rfl
    · simp only [List.cons_append, List.nil_append, List.drop_succ_cons,
        List.drop_zero]
      simp only [List.all_append, Bool.and_eq_true]
      constructor
      · rw [List.all_eq_true]
        intro ev hev
        have hadd := submitFold_events_addReq e params prompts e.scheduler []
          (by intro ev hmem; cases hmem) ev hev
        cases ev <;> simp_all [Event.isAddReq, Event.isSeedSet]
      · rw [List.all_eq_true]
        intro ev hev
        have hTrace := (runEngine_ok_loopTrace e false fuel _ _ _ hr).1
        rcases loopTrace_events hTrace ev hev with hv | hv <;>
          cases ev <;> simp_all [Event.isStepCall, Event.isUpdateCall,
            Event.isSeedSet]

/-- Witness for C6 (amended): the concrete seed-5 run. -/
theorem seed_applied_once_first_witness :
    egTrace.head? = some (Event.seedSet 5) ∧
    (egTrace.drop 1).all (fun ev => !ev.isSeedSet) = true :=
  seed_applied_once_first egEngine [egPrompt] 0 2 5 [egReq0Done] egFinal
    egTrace (by rfl) (by decide) (by rfl)

/-- C7: after every sequence of `add_request` and `update_requests_pools`
operations on a freshly constructed scheduler, the active pool's size never
exceeds the maximum batch size fixed at construction. -/
theorem active_capacity_invariant (m : Nat) (ops : List SchedOp) :
    (runOps m ops).active.length ≤ m :=
  (applyOps_invariant ops (mkScheduler m) (Nat.zero_le m)).2

/-- C8: if the result map omits a request id present in the active pool (the
snapshot handed to the step) or contains an id not in it, then
`update_requests_pools` fails with a consistency-violation error propagated
to the caller, and the failing call leaves the scheduler state — all three
pools — unchanged. -/
theorem update_requests_pools_mismatch (res : Pool) (st : SchedulerState)
    (h : (∃ k ∈ Pool.keys st.active, k ∉ Pool.keys res) ∨
      (∃ k ∈ Pool.keys res, k ∉ Pool.keys st.active)) :
    updateRequestsPools res st = .error () ∧
    applyOp st (SchedOp.update res) = st := by
  have hcov := sameKeys_false_of_mismatch h
  constructor
  · rw [updateRequestsPools, if_neg hcov]
  · simp only [applyOp]
    rw [updateRequestsPools, if_neg hcov]

/-- Witness for C8: an empty result map against a one-request active pool. -/
theorem update_requests_pools_mismatch_witness :
    updateRequestsPools [] egSubmitted = .error () ∧
    applyOp egSubmitted (SchedOp.update []) = egSubmitted :=
  update_requests_pools_mismatch [] egSubmitted
    (Or.inl ⟨0, by decide, by decide⟩)

/-- C9: an engine constructed with `random_seed = 0` behaves exactly as one
with no seed configured — the truthiness guard `if self.random_seed:`
rejects both — so `generate` returns identical results, states and
traces. -/
theorem seed_zero_like_none (tok : String → List Nat) (ss ds : StepFn)
    (sched : SchedulerState) (prompts : List String) (params fuel : Nat) :
    generate ⟨tok, ss, ds, some 0, sched⟩ prompts params fuel =
      generate ⟨tok, ss, ds, none, sched⟩ prompts params fuel := by
  rw [generate, generate]
  have hsub : submitStep ⟨tok, ss, ds, some 0, sched⟩ params =
      submitStep ⟨tok, ss, ds, none, sched⟩ params := by
    funext acc prompt
    rfl
  rw [hsub]
  rw [runEngine_static_congr ⟨tok, ss, ds, some 0, sched⟩
    ⟨tok, ss, ds, none, sched⟩ rfl fuel _]
  rfl

/-- C10: every `generate` call runs the engine loop in static-batch mode —
it invokes `run_engine()` with the `dynamic_generation` default of False —
so its result is independent of the dynamic-batch step and no step call in
its trace is a dynamic one. -/
theorem generate_static_only (tok : String → List Nat) (ss ds1 ds2 : StepFn)
    (seed : Option Int) (sched : SchedulerState) (prompts : List String)
    (params fuel : Nat) :
    generate ⟨tok, ss, ds1, seed, sched⟩ prompts params fuel =
      generate ⟨tok, ss, ds2, seed, sched⟩ prompts params fuel ∧
    (traceOf (generate ⟨tok, ss, ds1, seed, sched⟩ prompts params fuel)).all
      (fun ev => !ev.isDynamicStepCall) = true := by
  constructor
  · rw [generate, generate]
    have hsub : submitStep ⟨tok, ss, ds1, seed, sched⟩ params =
        submitStep ⟨tok, ss, ds2, seed, sched⟩ params := by
      funext acc prompt
      rfl
    rw [hsub]
    rw [runEngine_static_congr ⟨tok, ss, ds1, seed, sched⟩
      ⟨tok, ss, ds2, seed, sched⟩ rfl fuel _]
  · exact generate_trace_no_dynamic ..

end MegatronInference
